import Mathlib

/-!
Shallow embedding of boolseeker (`main.go`): the smali method-boundary
scanner, the keyword classifier, and the aggregation/category-report
logic, together with proofs about them.
-/

set_option maxRecDepth 4096

namespace Boolseeker

/-- Characters matched by the Go regexp class `\\w` (ASCII word characters). -/
def isWordChar (c : Char) : Bool := c.isAlphanum || c == '_'

/-- `strings.Contains`: `needle` occurs as a contiguous substring of `hay`. -/
def containsSub (needle : List Char) : List Char → Bool
  | [] => needle.isEmpty
  | c :: cs => needle.isPrefixOf (c :: cs) || containsSub needle cs

/-- `strings.ToLower`, per-character lowering (the catalog is ASCII). -/
def toLowerString (s : String) : String := String.mk (s.toList.map Char.toLower)

/-- `strings.HasSuffix`. -/
def hasSuffix (s tail : String) : Bool := tail.toList.isSuffixOf s.toList

/-- `strings.TrimSuffix`. -/
def trimSuffix (s tail : String) : String :=
  if hasSuffix s tail then String.mk (s.toList.take (s.toList.length - tail.toList.length))
  else s

/-- `strings.ReplaceAll`, specialised to the single-character patterns the
    source uses (`"/" → "."` and `"$" → "."`). -/
def replaceAllChar (old new : Char) (s : String) : String :=
  String.mk (s.toList.map (fun c => if c = old then new else c))

/-- The flat keyword catalog from `SearchKeywordsInMethod` in `main.go`,
    in source order. -/
def keywords : List String :=
  ["ro.hardware", "ro.kernel.qemu", "ro.product.device", "ro.build.product", "ro.product.model",
    "ro.build.fingerprint", "/dev/qemu_trace", "/system/bin/netcfg", "magisk", "root", "test-keys",
    "superuser", "Superuser", "daemonsu", "99SuperSUDaemon", ".has_su_daemon", "genymotion",
    "emulator", "nox", "27042", "frida", "27043", "FridaGadget", "xposed", "MessageDigest",
    "getPackageInfo", "signature", "/system/app/Superuser.apk", "/system/xbin/su",
    "com.noshufou.android.su.elite", "com.noshufou.android.su", "com.yellowes.su",
    "com.koushikdutta.superuser", "com.thirdparty.superuser", "eu.chainfire.supersu",
    "/system/usr/we-need-root", "ueventd.android_x86.rc", "x86.prop", "ueventd.ttVM_x86.rc",
    "init.ttVM_x86.rc", "fstab.ttVM_x86", "fstab.vbox86", "init.vbox86.rc", "ueventd.vbox86.rc",
    "/dev/socket/qemud", "/dev/qemu_pipe", "/system/lib/libc_malloc_debug_qemu.so",
    "/sys/qemu_trace", "/system/bin/qemu-props", "/dev/socket/genyd", "/dev/socket/baseband_genyd",
    "/proc/tty/drivers", "/proc/cpuinfo", "com.koushikdutta.rommanager",
    "com.koushikdutta.rommanager.license", "com.dimonvideo.luckypatcher", "com.chelpus.lackypatch",
    "com.ramdroid.appquarantine", "com.ramdroid.appquarantinepro", "com.devadvance.rootcloak",
    "com.devadvance.rootcloakplus", "de.robv.android.xposed.installer", "com.saurik.substrate",
    "com.zachspong.temprootremovejb", "com.amphoras.hidemyroot", "com.amphoras.hidemyrootadfree",
    "com.formyhm.hiderootPremium", "com.formyhm.hideroot", "me.phh.superuser",
    "eu.chainfire.supersu.pro", "com.kingouser.com",
    "com.android.vending.billing.InAppBillingService.COIN", "su", "busybox", "supersu",
    "Superuser.apk", "KingoUser.apk", "SuperSu.apk", "ro.build.selinux", "ro.debuggable",
    "service.adb.root", "ro.secure", "com.topjohnwu.magisk", "/data/local/bin/su", "/data/local/su",
    "/data/local/xbin/su", "/dev/com.koushikdutta.superuser.daemon/", "/sbin/su",
    "/system/bin/failsafe/su", "/su/bin/su", "/system/sd/xbin/su", "/system/xbin/daemonsu",
    "/system/sbin/su", "/vendor/bin/su", "/cache/su", "/data/su", "/dev/su", "/system/bin/.ext/su",
    "/system/usr/we-need-root/su", "/system/app/Kinguser.apk", "/data/adb/magisk", "/sbin/.magisk",
    "/cache/.disable_magisk", "/dev/.magisk.unblock", "/cache/magisk.log", "/data/adb/magisk.img",
    "/data/adb/magisk.db", "/data/adb/magisk_simple", "/init.magisk.rc", "/system/xbin/ku.sud",
    "/data/adb/ksu", "/data/adb/ksud", "me.weishu.kernelsu", "init.svc.qemud",
    "init.svc.qemu-props", "qemu.hw.mainkeys", "qemu.sf.fake_camera", "qemu.sf.lcd_density",
    "ro.bootloader", "ro.bootmode", "ro.kernel.android.qemud", "ro.kernel.qemu.gles",
    "ro.product.name", "ro.serialno", "geny"]

/-- Category keyword list `root_detection_keywords` from `main` in `main.go`. -/
def root_detection_keywords : List String :=
  ["com.noshufou.android.su", "com.noshufou.android.su.elite", "eu.chainfire.supersu",
    "com.koushikdutta.superuser", "com.thirdparty.superuser", "com.yellowes.su",
    "com.koushikdutta.rommanager", "com.koushikdutta.rommanager.license",
    "com.dimonvideo.luckypatcher", "com.chelpus.lackypatch", "com.ramdroid.appquarantine",
    "com.ramdroid.appquarantinepro", "com.devadvance.rootcloak", "com.devadvance.rootcloakplus",
    "de.robv.android.xposed.installer", "com.saurik.substrate", "com.zachspong.temprootremovejb",
    "com.amphoras.hidemyroot", "com.amphoras.hidemyrootadfree", "com.formyhm.hiderootPremium",
    "com.formyhm.hideroot", "me.phh.superuser", "eu.chainfire.supersu.pro", "com.kingouser.com",
    "com.android.vending.billing.InAppBillingService.COIN", "com.topjohnwu.magisk", "su", "busybox",
    "supersu", "Superuser.apk", "KingoUser.apk", "SuperSu.apk", "magisk", "ro.build.selinux",
    "ro.debuggable", "service.adb.root", "ro.secure", "root", "test-keys", "superuser", "Superuser",
    "daemonsu", "99SuperSUDaemon", ".has_su_daemon", "/system/app/Superuser.apk", "/system/xbin/su",
    "/system/usr/we-need-root", "/data/local/bin/su", "/data/local/su", "/data/local/xbin/su",
    "/dev/com.koushikdutta.superuser.daemon/", "/sbin/su", "/system/bin/failsafe/su",
    "/system/bin/su", "/su/bin/su", "/system/sd/xbin/su", "/system/xbin/busybox",
    "/system/xbin/daemonsu", "/system/xbin/su", "/system/sbin/su", "/vendor/bin/su", "/cache/su",
    "/data/su", "/dev/su", "/system/bin/.ext/su", "/system/usr/we-need-root/su",
    "/system/app/Kinguser.apk", "/data/adb/magisk", "/sbin/.magisk", "/cache/.disable_magisk",
    "/dev/.magisk.unblock", "/cache/magisk.log", "/data/adb/magisk.img", "/data/adb/magisk.db",
    "/data/adb/magisk_simple", "/init.magisk.rc", "/system/xbin/ku.sud", "/data/adb/ksu",
    "/data/adb/ksud", "me.weishu.kernelsu"]

/-- Category keyword list `emulator_detection_keywords` from `main`. -/
def emulator_detection_keywords : List String :=
  ["init.svc.qemud", "init.svc.qemu-props", "qemu.hw.mainkeys", "qemu.sf.fake_camera",
    "qemu.sf.lcd_density", "ro.bootloader", "ro.bootmode", "ro.hardware", "ro.kernel.android.qemud",
    "ro.kernel.qemu.gles", "ro.kernel.qemu", "ro.product.device", "ro.product.model",
    "ro.product.name", "ro.serialno", "ueventd.android_x86.rc", "x86.prop", "ueventd.ttVM_x86.rc",
    "init.ttVM_x86.rc", "fstab.ttVM_x86", "fstab.vbox86", "init.vbox86.rc", "ueventd.vbox86.rc",
    "/dev/socket/qemud", "/dev/qemu_pipe", "/system/lib/libc_malloc_debug_qemu.so",
    "/sys/qemu_trace", "/system/bin/qemu-props", "/dev/socket/genyd", "/dev/socket/baseband_genyd",
    "/proc/tty/drivers", "/proc/cpuinfo", "genymotion", "geny", "emulator", "nox",
    "/dev/qemu_trace", "/system/bin/netcfg"]

/-- Category keyword list `runtime_integrity_verification_keywords` from `main`. -/
def runtime_integrity_verification_keywords : List String :=
  ["27042", "frida", "27043", "FridaGadget", "xposed"]

/-- Category keyword list `file_integrity_keywords` from `main`. -/
def file_integrity_keywords : List String :=
  ["MessageDigest", "getPackageInfo", "signature"]

/-- `SearchKeywordsInMethod` from `main.go`: the haystack is lower-cased,
    each catalog keyword is tested with `strings.Contains` in catalog order and
    every match is appended; the flag is `len(foundKeywords) > 0`.  Note that
    the source lower-cases only the haystack, never the keyword. -/
def SearchKeywordsInMethod (methodContent : String) : List String × Bool :=
  let foundKeywords := keywords.foldl
    (fun acc keyword =>
      if containsSub keyword.toList (toLowerString methodContent).toList then acc ++ [keyword]
      else acc) []
  (foundKeywords, decide (0 < foundKeywords.length))

/-- Tail of the Go regexp `\\.method.* (\\w+)\\(\\)Z` at the current position: a
    space, a non-empty maximal run of word characters, then literally `()Z`
    (the run must abut `()Z` because `\\w` cannot match `(`). Returns capture 1. -/
def matchTail : List Char → Option (List Char)
  | ' ' :: rest =>
      let ws := rest.takeWhile isWordChar
      if ws.isEmpty then none
      else if "()Z".toList.isPrefixOf (rest.drop ws.length) then some ws
      else none
  | _ => none

/-- Greedy `.*`: the rightmost position at which `matchTail` succeeds. -/
def lastTailMatch : List Char → Option (List Char)
  | [] => none
  | c :: cs =>
      match lastTailMatch cs with
      | some w => some w
      | none => matchTail (c :: cs)

/-- `methodPattern.FindStringSubmatch` for `\\.method.* (\\w+)\\(\\)Z`: leftmost
    occurrence of `.method` admitting a completion, with `.*` greedy and unable
    to cross a newline; yields capture 1 (the method name). -/
def findMethodName : List Char → Option (List Char)
  | [] => none
  | c :: cs =>
      if ".method".toList.isPrefixOf (c :: cs) then
        match lastTailMatch (((c :: cs).drop 7).takeWhile (fun ch => ch != '\n')) with
        | some w => some w
        | none => findMethodName cs
      else findMethodName cs

def methodPatternMatch (line : String) : Option String :=
  (findMethodName line.toList).map String.mk

/-- `endMethodPattern.MatchString`: the regexp `\\.end method` is a literal, so
    matching is substring containment anywhere in the line. -/
def endMethodPatternMatch (line : String) : Bool :=
  containsSub ".end method".toList line.toList

/-- A line on which the scanner starts a new method unit. -/
def isDeclLine (line : String) : Bool := (methodPatternMatch line).isSome

/-- The per-file scanning state of `FindBooleanMethodsInSmali`:
    `currentMethod`, `inMethod` and the `methodContent` builder
    (kept as the list of appended lines). -/
structure ScanState where
  currentMethod : String
  inMethod : Bool
  methodContent : List String

/-- Go zero values: `currentMethod` empty, `inMethod` false, builder empty. -/
def initState : ScanState := ⟨"", false, []⟩

/-- One iteration of the read loop of `FindBooleanMethodsInSmali` on one line:
    a declaration match opens a fresh unit (discarding buffered text), an open
    unit buffers the line, and a terminator match on an open unit closes and
    emits it (the emitted unit is `(currentMethod, buffered lines)`). -/
def stepLine (st : ScanState) (line : String) : ScanState × Option (String × List String) :=
  let st1 : ScanState :=
    match methodPatternMatch line with
    | some name => ⟨name, true, []⟩
    | none => st
  let st2 : ScanState :=
    if st1.inMethod then ⟨st1.currentMethod, st1.inMethod, st1.methodContent ++ [line]⟩ else st1
  if st2.inMethod && endMethodPatternMatch line then
    (⟨st2.currentMethod, false, st2.methodContent⟩, some (st2.currentMethod, st2.methodContent))
  else (st2, none)

/-- The units emitted by running the read loop over a list of lines. -/
def scanLines (st : ScanState) : List String → List (String × List String)
  | [] => []
  | line :: rest => (stepLine st line).2.toList ++ scanLines (stepLine st line).1 rest

/-- The state after running the read loop over a list of lines. -/
def scanState (st : ScanState) : List String → ScanState
  | [] => st
  | line :: rest => scanState (stepLine st line).1 rest

/-- `bufio.Reader.ReadString '\\n'` driven by the read loop: the file's
    characters are cut into chunks each ending in a newline; a final chunk
    with no newline is returned together with `io.EOF`, and the loop breaks
    before using it, so it is dropped here. -/
def splitAfterNewlines (acc : List Char) : List Char → List (List Char)
  | [] => []
  | c :: cs =>
      if c = '\n' then (acc ++ [c]) :: splitAfterNewlines [] cs
      else splitAfterNewlines (acc ++ [c]) cs

/-- The lines of a file's raw content that the scanner actually processes. -/
def readLines (content : String) : List String :=
  (splitAfterNewlines [] content.toList).map String.mk

/-- A disassembly file visited by the walk: its path relative to the walk
    root, and its raw content. -/
structure SmaliFile where
  relPath : String
  content : String
deriving DecidableEq

def fileLines (f : SmaliFile) : List String := readLines f.content

/-- The class-name derivation of `FindBooleanMethodsInSmali`: strip the
    `.smali` suffix, then flatten `/` and `$` to `.`. -/
def classNameOf (relativePath : String) : String :=
  replaceAllChar '$' '.' (replaceAllChar '/' '.' (trimSuffix relativePath ".smali"))

/-- Scan one file: run the read loop over its complete lines and qualify each
    emitted unit's name as `className.method()`. -/
def scanFile (f : SmaliFile) : List (String × List String) :=
  (scanLines initState (fileLines f)).map
    (fun u => (classNameOf f.relPath ++ "." ++ u.1 ++ "()", u.2))

/-- All units produced by the walk: only files whose name ends in `.smali`
    are scanned, in walk order. -/
def allUnits (files : List SmaliFile) : List (String × List String) :=
  files.flatMap (fun f => if hasSuffix f.relPath ".smali" then scanFile f else [])

/-- The bodyText of a unit: its buffered lines concatenated verbatim
    (each line still carries its newline). -/
def bodyText (lines : List String) : String := String.join lines

/-- The `booleanMethods` slice: every closed unit's qualified name, in order. -/
def booleanMethodsOf (files : List SmaliFile) : List String :=
  (allUnits files).map Prod.fst

/-- The insertions into the `booleanMethodsWithKeywords` map, in order: a
    closed unit inserts `(name, foundKeywords)` only when `found` is true. -/
def keywordFindings (files : List SmaliFile) : List (String × List String) :=
  (allUnits files).filterMap (fun u =>
    let r := SearchKeywordsInMethod (bodyText u.2)
    if r.2 then some (u.1, r.1) else none)

/-- The per-unit insertion decision of the read loop, as a function: `some`
    of the map entry `(name, foundKeywords)` when the classifier matched,
    `none` otherwise. -/
def findingOf (u : String × List String) : Option (String × List String) :=
  if (SearchKeywordsInMethod (bodyText u.2)).2 then
    some (u.1, (SearchKeywordsInMethod (bodyText u.2)).1)
  else none

/-- As `findingOf`, keeping only the matched keyword list. -/
def findingKeywordsOf (u : String × List String) : Option (List String) :=
  if (SearchKeywordsInMethod (bodyText u.2)).2 then
    some (SearchKeywordsInMethod (bodyText u.2)).1
  else none

/-- Go map lookup against a list of insertions: the last insertion wins. -/
def mapLookup (entries : List (String × List String)) (key : String) : Option (List String) :=
  ((entries.filter (fun e => e.1 == key)).getLast?).map Prod.snd

/-- The `methodSet` deduplication of `main`: the set of distinct names. -/
def methodSet (files : List SmaliFile) : Finset String :=
  (booleanMethodsOf files).toFinset

/-- The `booleanMethodsWithKeywords` map as an association list with one
    entry per distinct inserted key, carrying the winning value. -/
def mapEntries (entries : List (String × List String)) : List (String × List String) :=
  ((entries.map Prod.fst).dedup).filterMap
    (fun k => (mapLookup entries k).map (fun v => (k, v)))

/-- The category filter of `main`: for each matched keyword (in order), append
    it once per equal entry of the category keyword list. -/
def filterKeywordsByCategory (ks cat : List String) : List String :=
  ks.flatMap (fun keyword =>
    cat.filterMap (fun r => if keyword = r then some keyword else none))

/-- The per-category report of `main`: methods of the keyword map whose
    filtered keyword list is non-empty, with that filtered list. -/
def categoryReport (cat : List String) (files : List SmaliFile) : List (String × List String) :=
  (mapEntries (keywordFindings files)).filterMap (fun e =>
    let filtered := filterKeywordsByCategory e.2 cat
    if filtered.isEmpty then none else some (e.1, filtered))

/-- `filepath.Walk` as the scanner sees it: a sequence of visits, each either
    a walk/read error or a readable file. -/
def collectWalk : List (Except String SmaliFile) → Except String (List SmaliFile)
  | [] => .ok []
  | .error e :: _ => .error e
  | .ok f :: rest => (collectWalk rest).map (fun fs => f :: fs)

/-- `FindBooleanMethodsInSmali`: on any walk error the whole scan aborts with
    that error and no partial lists are produced; otherwise it returns the
    method list and the keyword-map insertions. -/
def FindBooleanMethodsInSmali (events : List (Except String SmaliFile)) :
    Except String (List String × List (String × List String)) :=
  match collectWalk events with
  | .error e => .error e
  | .ok fs => .ok (booleanMethodsOf fs, keywordFindings fs)

/-! ### The keyword classifier -/

/-- The classifier loop's fold is a filter over the catalog. -/
theorem foldl_append_filter (p : String → Bool) (l acc : List String) :
    l.foldl (fun a k => if p k then a ++ [k] else a) acc = acc ++ l.filter p := by
  induction l generalizing acc with
  | nil => simp
  | cons a t ih =>
      cases h : p a <;> simp [h, ih, List.filter_cons]

/-- The flat catalog has no duplicate keyword. -/
theorem keywords_nodup : keywords.Nodup := by decide

/-- C1 (amended): for every bodyText, the classifier returns exactly those
    catalog keywords that are substrings of the lower-cased bodyText with the
    keyword's own casing left untouched, in catalog order, each at most once,
    and its matched flag is true iff that list is non-empty. -/
theorem c1_classifier_filters_lowercased_haystack (methodContent : String) :
    (SearchKeywordsInMethod methodContent).1 =
      keywords.filter (fun k => containsSub k.toList (toLowerString methodContent).toList) ∧
    ((SearchKeywordsInMethod methodContent).2 = true ↔
      (SearchKeywordsInMethod methodContent).1 ≠ []) ∧
    (SearchKeywordsInMethod methodContent).1.Nodup := by
  have h1 : (SearchKeywordsInMethod methodContent).1 =
      keywords.filter (fun k => containsSub k.toList (toLowerString methodContent).toList) := by
    simp [SearchKeywordsInMethod, foldl_append_filter]
  refine ⟨h1, ?_, ?_⟩
  · have h2 : (SearchKeywordsInMethod methodContent).2 =
        decide (0 < (SearchKeywordsInMethod methodContent).1.length) := rfl
    rw [h2]
    simp [List.length_pos]
  · rw [h1]
    exact keywords_nodup.filter _

/-- C1: counterexample to the claim as stated.  The catalog keyword
    `MessageDigest` is a case-insensitive substring of the bodyText
    `MessageDigest`, yet the classifier returns no keyword and reports
    `matched = false`, because the source never lower-cases the keyword. -/
theorem c1_counterexample :
    "MessageDigest" ∈ keywords ∧
    containsSub (toLowerString "MessageDigest").toList
      (toLowerString "MessageDigest").toList = true ∧
    (SearchKeywordsInMethod "MessageDigest").1 = [] ∧
    (SearchKeywordsInMethod "MessageDigest").2 = false := by
  refine ⟨by decide, by decide, by decide, by decide⟩

/-! ### Scanner step lemmas -/

theorem methodPatternMatch_none_of_not_decl {line : String} (h : isDeclLine line = false) :
    methodPatternMatch line = none := by
  cases hm : methodPatternMatch line with
  | none => rfl
  | some w => rw [isDeclLine, hm] at h; simp at h

theorem stepLine_closed_noop {st : ScanState} {line : String}
    (hst : st.inMethod = false) (hd : isDeclLine line = false) :
    stepLine st line = (st, none) := by
  simp [stepLine, methodPatternMatch_none_of_not_decl hd, hst]

theorem stepLine_decl {st : ScanState} {line name : String}
    (hm : methodPatternMatch line = some name) (he : endMethodPatternMatch line = false) :
    stepLine st line = (⟨name, true, [line]⟩, none) := by
  simp [stepLine, hm, he]

theorem stepLine_body {st : ScanState} {line : String}
    (hst : st.inMethod = true) (hd : isDeclLine line = false)
    (he : endMethodPatternMatch line = false) :
    stepLine st line = (⟨st.currentMethod, true, st.methodContent ++ [line]⟩, none) := by
  simp [stepLine, methodPatternMatch_none_of_not_decl hd, hst, he]

theorem stepLine_close {st : ScanState} {line : String}
    (hst : st.inMethod = true) (hd : isDeclLine line = false)
    (he : endMethodPatternMatch line = true) :
    stepLine st line = (⟨st.currentMethod, false, st.methodContent ++ [line]⟩,
      some (st.currentMethod, st.methodContent ++ [line])) := by
  simp [stepLine, methodPatternMatch_none_of_not_decl hd, hst, he]

theorem stepLine_no_end {st : ScanState} {line : String}
    (he : endMethodPatternMatch line = false) :
    (stepLine st line).2 = none := by
  simp [stepLine, he]

theorem scanLines_cons (st : ScanState) (line : String) (rest : List String) :
    scanLines st (line :: rest) =
      (stepLine st line).2.toList ++ scanLines (stepLine st line).1 rest := rfl

theorem scanLines_append (xs : List String) :
    ∀ (st : ScanState) (ys : List String),
      scanLines st (xs ++ ys) = scanLines st xs ++ scanLines (scanState st xs) ys := by
  induction xs with
  | nil => intro st ys; rfl
  | cons x t ih => intro st ys; simp [scanLines_cons, scanState, ih]

theorem scanLines_no_end (lines : List String) :
    ∀ st : ScanState, (∀ l ∈ lines, endMethodPatternMatch l = false) →
      scanLines st lines = [] := by
  induction lines with
  | nil => intro st _; rfl
  | cons l t ih =>
      intro st h
      rw [scanLines_cons, stepLine_no_end (h l (by simp))]
      simpa using ih _ (fun x hx => h x (by simp [hx]))

theorem scanLines_body_append (body : List String) :
    ∀ (st : ScanState) (rest : List String), st.inMethod = true →
      (∀ b ∈ body, isDeclLine b = false ∧ endMethodPatternMatch b = false) →
      scanLines st (body ++ rest) =
        scanLines ⟨st.currentMethod, true, st.methodContent ++ body⟩ rest := by
  induction body with
  | nil =>
      intro st rest hst _
      cases st with
      | mk m im c =>
          simp only at hst
          subst hst
          simp
  | cons b t ih =>
      intro st rest hst hb
      have h1 := hb b (by simp)
      rw [List.cons_append, scanLines_cons, stepLine_body hst h1.1 h1.2]
      simp only [Option.toList_none, List.nil_append]
      rw [ih _ _ rfl (fun x hx => hb x (by simp [hx]))]
      simp

/-- Well-formed scanner input with a unit count: junk lines that open no
    unit, and declaration/terminator pairs with plain body lines between. -/
inductive WFLines : List String → Nat → Prop
  | nil : WFLines [] 0
  | junk {l : String} {ls : List String} {n : Nat} :
      isDeclLine l = false → WFLines ls n → WFLines (l :: ls) n
  | unit {d t : String} {body ls : List String} {n : Nat} :
      isDeclLine d = true → endMethodPatternMatch d = false →
      (∀ b ∈ body, isDeclLine b = false ∧ endMethodPatternMatch b = false) →
      isDeclLine t = false → endMethodPatternMatch t = true →
      WFLines ls n → WFLines (d :: (body ++ t :: ls)) (n + 1)

/-- Running the read loop from a closed state over well-formed input yields
    exactly the well-formed units, each spanning declaration line through
    terminator line inclusive. -/
theorem scanLines_wf {lines : List String} {n : Nat} (h : WFLines lines n) :
    ∀ st : ScanState, st.inMethod = false →
      (scanLines st lines).length = n ∧
      ∀ u ∈ scanLines st lines, ∃ d body t, u.2 = d :: (body ++ [t]) ∧
        isDeclLine d = true ∧
        (∀ b ∈ body, isDeclLine b = false ∧ endMethodPatternMatch b = false) ∧
        endMethodPatternMatch t = true := by
  induction h with
  | nil => intro st _; exact ⟨rfl, by simp [scanLines]⟩
  | @junk l ls m hl hrest ih =>
      intro st hst
      rw [scanLines_cons, stepLine_closed_noop hst hl]
      simpa using ih st hst
  | @unit d t body ls m hd hdend hbody htd hte hrest ih =>
      intro st hst
      obtain ⟨name, hname⟩ : ∃ name, methodPatternMatch d = some name := by
        cases hm : methodPatternMatch d with
        | none => rw [isDeclLine, hm] at hd; simp at hd
        | some w => exact ⟨w, rfl⟩
      rw [scanLines_cons, stepLine_decl hname hdend]
      simp only [Option.toList_none, List.nil_append]
      rw [scanLines_body_append body ⟨name, true, [d]⟩ (t :: ls) rfl hbody]
      rw [scanLines_cons, stepLine_close rfl htd hte]
      obtain ⟨hlen, hshape⟩ := ih ⟨name, false, ([d] ++ body) ++ [t]⟩ rfl
      constructor
      · simpa using hlen
      · intro u hu
        simp only [Option.toList_some, List.singleton_append, List.mem_cons] at hu
        rcases hu with hu | hu
        · exact ⟨d, body, t, by simp [hu], hd, hbody, hte⟩
        · exact hshape u hu

/-! ### C4: the terminator pattern -/

/-- C4 (amended): with a unit open, the scanner closes it on a line exactly
    when the line contains `.end method` as a substring, whatever else the
    line contains. -/
theorem c4_terminator_is_substring_containment (st : ScanState) (line : String)
    (h : st.inMethod = true) :
    (stepLine st line).2.isSome = containsSub ".end method".toList line.toList := by
  show (stepLine st line).2.isSome = endMethodPatternMatch line
  cases hm : methodPatternMatch line <;> cases he : endMethodPatternMatch line <;>
    simp [stepLine, hm, he, h]

/-- C4: counterexample to the claim as stated.  A line that merely contains
    the method-end marker among other (non-whitespace) content still closes
    the open unit and the unit is emitted, terminator line included. -/
theorem c4_counterexample :
    scanLines initState [".method public a()Z\n", "xx .end method xx\n"] =
      [("a", [".method public a()Z\n", "xx .end method xx\n"])] ∧
    'x' ∈ "xx .end method xx\n".toList ∧ 'x'.isWhitespace = false ∧
    'x' ∉ ".end method".toList := by
  refine ⟨by decide, by decide, by decide, by decide⟩

/-- Witness for `c4_terminator_is_substring_containment` at a concrete open
    state and line. -/
theorem c4_witness :
    (⟨"a", true, []⟩ : ScanState).inMethod = true ∧
    (stepLine ⟨"a", true, []⟩ "xx .end method xx\n").2.isSome =
      containsSub ".end method".toList "xx .end method xx\n".toList :=
  ⟨rfl, c4_terminator_is_substring_containment ⟨"a", true, []⟩ "xx .end method xx\n" rfl⟩

/-! ### C6: drop semantics for malformed units -/

/-- C6: an unterminated unit is never emitted.  A declaration followed only by
    terminator-free lines up to end of file yields no unit, and a second
    declaration before any terminator discards the first declaration's
    buffered text, so only the second declaration's unit is emitted. -/
theorem c6_unterminated_units_dropped :
    (∀ (d : String) (rest : List String), isDeclLine d = true →
      endMethodPatternMatch d = false →
      (∀ l ∈ rest, endMethodPatternMatch l = false) →
      scanLines initState (d :: rest) = []) ∧
    (∀ (d1 d2 t : String) (mid body : List String),
      isDeclLine d1 = true → endMethodPatternMatch d1 = false →
      (∀ l ∈ mid, endMethodPatternMatch l = false) →
      isDeclLine d2 = true → endMethodPatternMatch d2 = false →
      (∀ b ∈ body, isDeclLine b = false ∧ endMethodPatternMatch b = false) →
      isDeclLine t = false → endMethodPatternMatch t = true →
      ∃ name, methodPatternMatch d2 = some name ∧
        scanLines initState (d1 :: (mid ++ d2 :: (body ++ [t]))) =
          [(name, d2 :: (body ++ [t]))]) := by
  constructor
  · intro d rest _ hdend hrest
    exact scanLines_no_end (d :: rest) initState (by
      intro l hl
      rcases List.mem_cons.mp hl with h | h
      · exact h ▸ hdend
      · exact hrest l h)
  · intro d1 d2 t mid body _ hd1end hmid hd2 hd2end hbody htd hte
    obtain ⟨name, hname⟩ : ∃ name, methodPatternMatch d2 = some name := by
      cases hm : methodPatternMatch d2 with
      | none => rw [isDeclLine, hm] at hd2; simp at hd2
      | some w => exact ⟨w, rfl⟩
    refine ⟨name, hname, ?_⟩
    have hsplit : d1 :: (mid ++ d2 :: (body ++ [t])) =
        (d1 :: mid) ++ (d2 :: (body ++ [t])) := by simp
    rw [hsplit, scanLines_append]
    rw [scanLines_no_end (d1 :: mid) initState (by
      intro l hl
      rcases List.mem_cons.mp hl with h | h
      · exact h ▸ hd1end
      · exact hmid l h)]
    rw [List.nil_append, scanLines_cons, stepLine_decl hname hd2end]
    simp only [Option.toList_none, List.nil_append]
    rw [scanLines_body_append body ⟨name, true, [d2]⟩ [t] rfl hbody]
    rw [scanLines_cons, stepLine_close rfl htd hte]
    simp [scanLines]

/-- Witness for `c6_unterminated_units_dropped` at concrete inputs. -/
theorem c6_witness :
    scanLines initState [".method public a()Z\n"] = [] ∧
    ∃ name, methodPatternMatch ".method public b()Z\n" = some name ∧
      scanLines initState
          (".method public a()Z\n" :: ([] ++ ".method public b()Z\n" :: ([] ++ [".end method\n"]))) =
        [(name, ".method public b()Z\n" :: ([] ++ [".end method\n"]))] := by
  constructor
  · exact c6_unterminated_units_dropped.1 ".method public a()Z\n" [] (by decide) (by decide)
      (by intro l hl; simp at hl)
  · exact c6_unterminated_units_dropped.2 ".method public a()Z\n" ".method public b()Z\n"
      ".end method\n" [] [] (by decide) (by decide) (by intro l hl; simp at hl) (by decide)
      (by decide) (by intro b hb; simp at hb) (by decide) (by decide)

/-! ### C3: well-formed directories -/

/-- C3: a directory of smali files containing well-formed
    declaration/terminator pairs (`ns` counts them per file, `N = ns.sum`)
    yields exactly `N` method units, and every emitted unit's bodyText starts
    at the line containing its declaration and ends at (and includes) the line
    containing its terminator marker. -/
theorem c3_scanner_counts_wellformed_units (files : List SmaliFile) (ns : List Nat)
    (h : List.Forall₂
      (fun f n => hasSuffix f.relPath ".smali" = true ∧ WFLines (fileLines f) n) files ns) :
    (allUnits files).length = ns.sum ∧
    ∀ u ∈ allUnits files, ∃ d body t, u.2 = d :: (body ++ [t]) ∧
      isDeclLine d = true ∧
      (∀ b ∈ body, isDeclLine b = false ∧ endMethodPatternMatch b = false) ∧
      endMethodPatternMatch t = true := by
  induction h with
  | nil => exact ⟨rfl, by simp [allUnits]⟩
  | @cons f n fs ms hf hrest ih =>
      obtain ⟨hsuf, hwf⟩ := hf
      obtain ⟨hlen, hshape⟩ := scanLines_wf hwf initState rfl
      obtain ⟨ihlen, ihshape⟩ := ih
      constructor
      · have h1 : allUnits (f :: fs) = scanFile f ++ allUnits fs := by
          simp [allUnits, hsuf]
        have h2 : (scanFile f).length = n := by
          simpa [scanFile] using hlen
        rw [h1, List.length_append, h2, ihlen, List.sum_cons]
      · intro u hu
        simp only [allUnits, List.flatMap_cons, hsuf, if_pos, List.mem_append] at hu
        rcases hu with hu | hu
        · simp only [scanFile, List.mem_map] at hu
          obtain ⟨u0, hu0, rfl⟩ := hu
          exact hshape u0 hu0
        · exact ihshape u (by simpa [allUnits] using hu)

/-- Witness for `c3_scanner_counts_wellformed_units`: a concrete directory
    with one file holding one well-formed pair. -/
theorem c3_witness :
    (allUnits [⟨"a/b/Checker.smali", ".method public isRooted()Z\ntest-keys\n.end method\n"⟩]).length =
      List.sum [1] ∧
    ∀ u ∈ allUnits [⟨"a/b/Checker.smali", ".method public isRooted()Z\ntest-keys\n.end method\n"⟩],
      ∃ d body t, u.2 = d :: (body ++ [t]) ∧
        isDeclLine d = true ∧
        (∀ b ∈ body, isDeclLine b = false ∧ endMethodPatternMatch b = false) ∧
        endMethodPatternMatch t = true := by
  apply c3_scanner_counts_wellformed_units
  refine List.Forall₂.cons ⟨by decide, ?_⟩ List.Forall₂.nil
  have he : fileLines ⟨"a/b/Checker.smali", ".method public isRooted()Z\ntest-keys\n.end method\n"⟩ =
      [".method public isRooted()Z\n", "test-keys\n", ".end method\n"] := by decide
  rw [he]
  exact @WFLines.unit ".method public isRooted()Z\n" ".end method\n" ["test-keys\n"] [] 0
    (by decide) (by decide) (by decide) (by decide) (by decide) WFLines.nil

/-! ### C10: the newline-less final line -/

theorem string_toList_append (s p : String) : (s ++ p).toList = s.toList ++ p.toList := by
  cases s with
  | mk a =>
      cases p with
      | mk b => rfl

theorem splitAfterNewlines_no_newline (ys : List Char) :
    ∀ acc : List Char, (∀ c ∈ ys, c ≠ '\n') → splitAfterNewlines acc ys = [] := by
  induction ys with
  | nil => intro acc _; rfl
  | cons c cs ih =>
      intro acc h
      have hc : c ≠ '\n' := h c (by simp)
      simp only [splitAfterNewlines, if_neg hc]
      exact ih _ (fun x hx => h x (by simp [hx]))

theorem splitAfterNewlines_append_no_newline (xs : List Char) :
    ∀ (acc ys : List Char), (∀ c ∈ ys, c ≠ '\n') →
      splitAfterNewlines acc (xs ++ ys) = splitAfterNewlines acc xs := by
  induction xs with
  | nil =>
      intro acc ys h
      simpa [splitAfterNewlines] using splitAfterNewlines_no_newline ys acc h
  | cons x t ih =>
      intro acc ys h
      by_cases hx : x = '\n' <;>
        simp only [List.cons_append, splitAfterNewlines, hx, ite_true, ite_false,
          if_pos, if_neg, not_false_eq_true, List.append_eq, ih _ ys h]

/-- C10: a final line not terminated by a newline is ignored entirely — the
    processed line sequence of `content ++ extra` equals that of `content`
    whenever `extra` contains no newline; in particular a terminator on a
    newline-less final line leaves the open unit unemitted, while the same
    file with a final newline emits it. -/
theorem c10_final_partial_line_dropped :
    (∀ content extra : String, (∀ c ∈ extra.toList, c ≠ '\n') →
      readLines (content ++ extra) = readLines content) ∧
    scanFile ⟨"A.smali", ".method public a()Z\n.end method"⟩ = [] ∧
    (scanFile ⟨"A.smali", ".method public a()Z\n.end method\n"⟩).length = 1 := by
  refine ⟨?_, by decide, by decide⟩
  intro content extra h
  simp only [readLines, string_toList_append]
  rw [splitAfterNewlines_append_no_newline content.toList [] extra.toList h]

/-- Witness for `c10_final_partial_line_dropped` at concrete strings. -/
theorem c10_witness :
    (∀ c ∈ (".end method" : String).toList, c ≠ '\n') ∧
    readLines (".x\n" ++ ".end method") = readLines ".x\n" :=
  ⟨by decide, c10_final_partial_line_dropped.1 ".x\n" ".end method" (by decide)⟩

/-! ### C7: MethodIndex idempotence -/

/-- C7: the MethodIndex is idempotent under scanning the same directory twice
    and merging: membership and size are unchanged; and distinct files whose
    inner-class names flatten to the same qualified class name collapse to a
    single index entry. -/
theorem c7_methodset_idempotent :
    (∀ files : List SmaliFile, methodSet (files ++ files) = methodSet files) ∧
    classNameOf "a/b/Checker$C.smali" = classNameOf "a/b/Checker/C.smali" ∧
    (methodSet [⟨"a/b/Checker$C.smali", ".method public m()Z\n.end method\n"⟩,
        ⟨"a/b/Checker/C.smali", ".method public m()Z\n.end method\n"⟩]).card = 1 := by
  refine ⟨?_, by decide, by decide⟩
  intro files
  simp [methodSet, booleanMethodsOf, allUnits]

/-! ### Aggregation helpers -/

theorem mem_of_getLast?_eq {α : Type} {l : List α} {a : α} (h : l.getLast? = some a) :
    a ∈ l := by
  induction l with
  | nil => simp at h
  | cons x t ih =>
      cases t with
      | nil =>
          simp only [List.getLast?_singleton, Option.some.injEq] at h
          simp [h]
      | cons y u =>
          rw [List.getLast?_cons_cons] at h
          exact List.mem_cons_of_mem x (ih h)

theorem filter_filterMap_eq {α β : Type} (f : α → Option β) (p : β → Bool) (q : α → Bool)
    (h : ∀ a b, f a = some b → p b = q a) :
    ∀ l : List α, (l.filterMap f).filter p = (l.filter q).filterMap f := by
  intro l
  induction l with
  | nil => rfl
  | cons a t ih =>
      cases hf : f a with
      | none =>
          cases hq : q a <;>
            simp [List.filterMap_cons, List.filter_cons, hf, hq, ih]
      | some b =>
          have hpq : p b = q a := h a b hf
          cases hq : q a <;> rw [hq] at hpq <;>
            simp [List.filterMap_cons, List.filter_cons, hf, hpq, hq, ih]

theorem findingOf_fst {u e : String × List String} (h : findingOf u = some e) : e.1 = u.1 := by
  unfold findingOf at h
  by_cases hc : (SearchKeywordsInMethod (bodyText u.2)).2 = true
  · rw [if_pos hc] at h
    cases h
    rfl
  · rw [if_neg hc] at h
    cases h

theorem map_snd_filterMap_findingOf :
    ∀ m : List (String × List String),
      (m.filterMap findingOf).map Prod.snd = m.filterMap findingKeywordsOf := by
  intro m
  induction m with
  | nil => rfl
  | cons u t ih =>
      by_cases h : (SearchKeywordsInMethod (bodyText u.2)).2 = true <;>
        simp [List.filterMap_cons, findingOf, findingKeywordsOf, h, ih]

theorem filterMap_lookup_keys (l : List (String × List String)) :
    ∀ m : List String,
      (m.filterMap (fun k => (mapLookup l k).map (fun v => (k, v)))).map Prod.fst =
        m.filter (fun k => (mapLookup l k).isSome) := by
  intro m
  induction m with
  | nil => rfl
  | cons k t ih =>
      cases h : mapLookup l k <;>
        simp [List.filterMap_cons, List.filter_cons, h, ih]

theorem mapEntries_keys_nodup (l : List (String × List String)) :
    ((mapEntries l).map Prod.fst).Nodup := by
  rw [mapEntries, filterMap_lookup_keys]
  exact (List.nodup_dedup _).filter _

theorem mapLookup_some_mem {l : List (String × List String)} {key : String} {v : List String}
    (h : mapLookup l key = some v) : (key, v) ∈ l := by
  unfold mapLookup at h
  cases hg : (l.filter (fun e => e.1 == key)).getLast? with
  | none => rw [hg] at h; simp at h
  | some p =>
      rw [hg] at h
      have hv : p.2 = v := by simpa using h
      have hp := List.mem_filter.mp (mem_of_getLast?_eq hg)
      have hk : p.1 = key := by simpa using hp.2
      have hpe : (key, v) = p := by
        cases p
        simp only at hk hv
        simp [hk, hv]
      rw [hpe]
      exact hp.1

theorem mapEntries_mem {l : List (String × List String)} {e : String × List String}
    (h : e ∈ mapEntries l) : mapLookup l e.1 = some e.2 := by
  unfold mapEntries at h
  obtain ⟨k, hk, hke⟩ := List.mem_filterMap.mp h
  cases hl : mapLookup l k with
  | none => rw [hl] at hke; simp at hke
  | some v =>
      rw [hl] at hke
      simp only [Option.map_some'] at hke
      have he : (k, v) = e := Option.some.inj hke
      subst he
      exact hl

theorem mem_mapEntries_of_lookup {l : List (String × List String)} {name : String}
    {ks : List String} (h : mapLookup l name = some ks) : (name, ks) ∈ mapEntries l := by
  have hmem : (name, ks) ∈ l := mapLookup_some_mem h
  have hname : name ∈ (l.map Prod.fst).dedup :=
    List.mem_dedup.mpr (List.mem_map.mpr ⟨(name, ks), hmem, rfl⟩)
  unfold mapEntries
  exact List.mem_filterMap.mpr ⟨name, hname, by simp [h]⟩

/-! ### C5: last-seen semantics of the keyword map -/

/-- C5 (amended): the keyword map keeps one entry per qualified name, and a
    lookup returns the keyword findings of the most recent encounter of that
    name whose matched keyword set is non-empty — encounters that match no
    keyword are never inserted and so never displace an earlier finding. -/
theorem c5_last_nonempty_encounter_wins (files : List SmaliFile) (name : String) :
    ((mapEntries (keywordFindings files)).map Prod.fst).Nodup ∧
    mapLookup (keywordFindings files) name =
      (((allUnits files).filter (fun u => u.1 == name)).filterMap
        findingKeywordsOf).getLast? := by
  refine ⟨mapEntries_keys_nodup _, ?_⟩
  have h1 : keywordFindings files = (allUnits files).filterMap findingOf := rfl
  rw [h1]
  unfold mapLookup
  rw [filter_filterMap_eq findingOf (fun e => e.1 == name) (fun u => u.1 == name)
    (fun a b hb => by have hf := findingOf_fst hb; simp [hf]) (allUnits files)]
  rw [← List.getLast?_map, map_snd_filterMap_findingOf]

/-- C5: counterexample to the claim as stated.  The most recent encounter of
    `A.a()` matches no keyword, yet the keyword map still holds the earlier
    encounter's findings and the method still reaches the root-detection
    report — the most recent encounter did not win. -/
theorem c5_counterexample :
    (allUnits [⟨"A.smali",
      ".method public a()Z\nmagisk\n.end method\n.method public a()Z\n.end method\n"⟩]).getLast? =
      some ("A.a()", [".method public a()Z\n", ".end method\n"]) ∧
    (SearchKeywordsInMethod (bodyText [".method public a()Z\n", ".end method\n"])).2 = false ∧
    mapLookup (keywordFindings [⟨"A.smali",
      ".method public a()Z\nmagisk\n.end method\n.method public a()Z\n.end method\n"⟩]) "A.a()" =
      some ["magisk"] ∧
    "A.a()" ∈ (categoryReport root_detection_keywords [⟨"A.smali",
      ".method public a()Z\nmagisk\n.end method\n.method public a()Z\n.end method\n"⟩]).map
        Prod.fst := by
  refine ⟨by decide, by decide, by decide, by decide⟩

/-! ### C2: category filtering -/

theorem filterMap_eq_replicate_count (cat : List String) (k : String) :
    cat.filterMap (fun r => if k = r then some k else none) =
      List.replicate (cat.count k) k := by
  induction cat with
  | nil => rfl
  | cons r t ih =>
      by_cases h : k = r
      · subst h
        simp [List.filterMap_cons, List.count_cons, ih, List.replicate_succ]
      · simp [List.filterMap_cons, List.count_cons, h, ih, Ne.symm h]

theorem count_filterKeywordsByCategory (ks cat : List String) (x : String) :
    (filterKeywordsByCategory ks cat).count x = ks.count x * cat.count x := by
  induction ks with
  | nil => simp [filterKeywordsByCategory]
  | cons k t ih =>
      rw [filterKeywordsByCategory, List.flatMap_cons, List.count_append,
        filterMap_eq_replicate_count, List.count_replicate]
      rw [filterKeywordsByCategory] at ih
      rw [ih, List.count_cons]
      by_cases h : x = k
      · subst h
        simp only [beq_self_eq_true, if_pos]
        ring
      · have h2 : (k == x) = false := by simpa using Ne.symm h
        simp [h2]

theorem mem_filterKeywordsByCategory (ks cat : List String) (x : String) :
    x ∈ filterKeywordsByCategory ks cat ↔ x ∈ ks ∧ x ∈ cat := by
  rw [filterKeywordsByCategory]
  simp only [List.mem_flatMap, List.mem_filterMap]
  constructor
  · rintro ⟨k, hk, r, hr, hif⟩
    by_cases h : k = r
    · rw [if_pos h] at hif
      cases hif
      exact ⟨hk, h ▸ hr⟩
    · rw [if_neg h] at hif
      cases hif
  · rintro ⟨hks, hcat⟩
    exact ⟨x, hks, x, hcat, by simp⟩

theorem mem_categoryReport_iff (cat : List String) (files : List SmaliFile) (name : String) :
    name ∈ (categoryReport cat files).map Prod.fst ↔
      ∃ ks, mapLookup (keywordFindings files) name = some ks ∧
        filterKeywordsByCategory ks cat ≠ [] := by
  rw [categoryReport]
  constructor
  · intro h
    obtain ⟨x, hx, hxname⟩ := List.mem_map.mp h
    obtain ⟨e, he, hfe⟩ := List.mem_filterMap.mp hx
    simp only at hfe
    by_cases hemp : (filterKeywordsByCategory e.2 cat).isEmpty = true
    · rw [if_pos hemp] at hfe
      cases hfe
    · rw [if_neg hemp] at hfe
      have hxe : x = (e.1, filterKeywordsByCategory e.2 cat) := (Option.some.inj hfe).symm
      have hname : e.1 = name := by rw [hxe] at hxname; exact hxname
      refine ⟨e.2, hname ▸ mapEntries_mem he, ?_⟩
      intro hnil
      rw [List.isEmpty_iff] at hemp
      exact hemp hnil
  · rintro ⟨ks, hks, hne⟩
    apply List.mem_map.mpr
    refine ⟨(name, filterKeywordsByCategory ks cat), ?_, rfl⟩
    apply List.mem_filterMap.mpr
    refine ⟨(name, ks), mem_mapEntries_of_lookup hks, ?_⟩
    simp only
    rw [if_neg (by simpa [List.isEmpty_iff] using hne)]

/-- C2 (amended): the category keyword list for a method contains exactly the
    elements of the intersection of its matched keywords with the category's
    keyword list, but as a list with multiplicity `count in K * count in C`
    (the root category list repeats one keyword, which is therefore listed
    twice); a method appears in a category's report iff the intersection is
    non-empty. -/
theorem c2_category_filter_intersection :
    (∀ ks cat : List String, ∀ x : String,
      (x ∈ filterKeywordsByCategory ks cat ↔ x ∈ ks ∧ x ∈ cat) ∧
      (filterKeywordsByCategory ks cat).count x = ks.count x * cat.count x) ∧
    (∀ cat : List String, ∀ files : List SmaliFile, ∀ name : String,
      name ∈ (categoryReport cat files).map Prod.fst ↔
        ∃ ks, mapLookup (keywordFindings files) name = some ks ∧ ∃ x, x ∈ ks ∧ x ∈ cat) := by
  constructor
  · intro ks cat x
    exact ⟨mem_filterKeywordsByCategory ks cat x, count_filterKeywordsByCategory ks cat x⟩
  · intro cat files name
    rw [mem_categoryReport_iff]
    constructor
    · rintro ⟨ks, hks, hne⟩
      refine ⟨ks, hks, ?_⟩
      obtain ⟨x, hx⟩ := List.exists_mem_of_ne_nil _ hne
      obtain ⟨h1, h2⟩ := (mem_filterKeywordsByCategory ks cat x).mp hx
      exact ⟨x, h1, h2⟩
    · rintro ⟨ks, hks, x, hxks, hxcat⟩
      refine ⟨ks, hks, ?_⟩
      intro hnil
      have hx := (mem_filterKeywordsByCategory ks cat x).mpr ⟨hxks, hxcat⟩
      rw [hnil] at hx
      cases hx

/-- C2: counterexample to the claim as stated.  For a finding whose matched
    keywords include `/system/xbin/su` — which occurs twice in the
    root-detection keyword list — the report's keyword list holds that keyword
    twice, so it is not equal to the set intersection `K ∩ C`. -/
theorem c2_counterexample :
    (categoryReport root_detection_keywords
        [⟨"A.smali", ".method public a()Z\n/system/xbin/su\n.end method\n"⟩]).map Prod.snd =
      [["/system/xbin/su", "/system/xbin/su", "su"]] ∧
    ¬ (["/system/xbin/su", "/system/xbin/su", "su"] : List String).Nodup := by
  refine ⟨by decide, by decide⟩

/-! ### C8: reports never name unindexed methods -/

/-- C8: every qualified name in any of the four category reports is also a
    member of the deduplicated MethodIndex. -/
theorem c8_report_names_in_method_index (files : List SmaliFile) (cat : List String)
    (name : String)
    (hcat : cat ∈ [root_detection_keywords, emulator_detection_keywords,
      runtime_integrity_verification_keywords, file_integrity_keywords])
    (h : name ∈ (categoryReport cat files).map Prod.fst) :
    name ∈ methodSet files := by
  obtain ⟨ks, hks, -⟩ := (mem_categoryReport_iff cat files name).mp h
  have hmem : (name, ks) ∈ keywordFindings files := mapLookup_some_mem hks
  have h1 : keywordFindings files = (allUnits files).filterMap findingOf := rfl
  rw [h1] at hmem
  obtain ⟨u, hu, hfu⟩ := List.mem_filterMap.mp hmem
  have hn : name = u.1 := findingOf_fst hfu
  simp only [methodSet, booleanMethodsOf, List.mem_toFinset, List.mem_map]
  exact ⟨u, hu, hn.symm⟩

/-- Witness for `c8_report_names_in_method_index` at a concrete run. -/
theorem c8_witness :
    root_detection_keywords ∈ [root_detection_keywords, emulator_detection_keywords,
      runtime_integrity_verification_keywords, file_integrity_keywords] ∧
    "a.b.Checker.isRooted()" ∈ (categoryReport root_detection_keywords
      [⟨"a/b/Checker.smali", ".method public isRooted()Z\ntest-keys\n.end method\n"⟩]).map
        Prod.fst ∧
    "a.b.Checker.isRooted()" ∈ methodSet
      [⟨"a/b/Checker.smali", ".method public isRooted()Z\ntest-keys\n.end method\n"⟩] := by
  refine ⟨List.mem_cons_self _ _, by decide, ?_⟩
  exact c8_report_names_in_method_index _ _ _ (List.mem_cons_self _ _) (by decide)

/-! ### C9: walk errors abort the scan -/

theorem collectWalk_error {events : List (Except String SmaliFile)} {msg : String}
    (h : Except.error msg ∈ events) : ∃ m, collectWalk events = Except.error m := by
  induction events with
  | nil => cases h
  | cons ev rest ih =>
      cases ev with
      | error e => exact ⟨e, rfl⟩
      | ok f =>
          rcases List.mem_cons.mp h with h1 | h1
          · simp at h1
          · obtain ⟨m, hm⟩ := ih h1
            exact ⟨m, by simp [collectWalk, hm, Except.map]⟩

/-- C9: if any visit of the walk fails (root untraversable or a qualifying
    file unreadable), the whole scan returns an error: no method list or
    keyword map is produced for that walk. -/
theorem c9_walk_error_aborts (events : List (Except String SmaliFile)) (msg : String)
    (h : Except.error msg ∈ events) :
    ∃ m, FindBooleanMethodsInSmali events = Except.error m := by
  obtain ⟨m, hm⟩ := collectWalk_error h
  exact ⟨m, by simp [FindBooleanMethodsInSmali, hm]⟩

/-- Witness for `c9_walk_error_aborts` at a concrete event sequence. -/
theorem c9_witness :
    Except.error "permission denied" ∈
      ([Except.ok ⟨"A.smali", ""⟩, Except.error "permission denied"] :
        List (Except String SmaliFile)) ∧
    ∃ m, FindBooleanMethodsInSmali
        [Except.ok ⟨"A.smali", ""⟩, Except.error "permission denied"] =
      Except.error m :=
  ⟨by simp, c9_walk_error_aborts _ "permission denied" (by simp)⟩

end Boolseeker
